import Mathlib

/-!
Shallow embedding of the eigsep-motor-control repository.

The embedding covers, faithfully to the Python source:

* the degree-to-pulse translation functions
  (`stepper_panda.Stepper.calc_step` / `calc_deg`, `sender.Sender.calc_pulses`,
  `stepper_pico.Stepper.motor_calc`),
* the device-side stepper state machine of `stepper_pico.Stepper`
  (`move`, `check`, `save`, `close`) together with the device loop of
  `scripts/python_scripts/main.py`,
* the step-log persistence (`stepper_pico.Stepper.look` / `load`),
* the host-side combined-log rotation and scan of `scripts/sender.py`
  (`rotate_log_if_needed`, `get_log_filename`, `scan_combined`),
* the potentiometer direction classifier and reversal trigger of
  `eigsep_motor_control/encoder.py`.

Python floats are modelled as exact rationals, Python ints as `Int`,
Python strings as `List Char`.
-/

namespace EigsepMC

/-- Python `int()` applied to a number: truncation toward zero. -/
def pyTrunc (q : ℚ) : ℤ := if 0 ≤ q then ⌊q⌋ else ⌈q⌉

/-- Python 3 `round()` with one argument: nearest integer, ties to even. -/
def pyRound (q : ℚ) : ℤ :=
  if q - ⌊q⌋ < 1/2 then ⌊q⌋
  else if 1/2 < q - ⌊q⌋ then ⌊q⌋ + 1
  else if 2 ∣ ⌊q⌋ then ⌊q⌋ else ⌊q⌋ + 1

/-- The three conversion constants every translation variant carries:
microstep factor, driven-gear tooth count, step angle in degrees. -/
structure StepConfig where
  microstep : ℚ
  gear_teeth : ℚ
  step_angle : ℚ

/-- Constants set in `stepper_panda.Stepper.__init__`:
`microstep = 1`, `gear_teeth = 113`, `step_angle = 1.8`. -/
def pandaConfig : StepConfig := ⟨1, 113, 9/5⟩

/-- Module-level constants of `scripts/sender.py`:
`MICROSTEP = 4`, `GEAR_TEETH = 113`, `STEP_ANGLE = 1.8`. -/
def senderConfig : StepConfig := ⟨4, 113, 9/5⟩

/-- Constants set in `stepper_pico.Stepper.__init__`:
`microstep = 4`, `gear_teeth = 113`, `step_angle = 1.8`. -/
def picoConfig : StepConfig := ⟨4, 113, 9/5⟩

/-- `stepper_pico.Stepper.__init__`: `full_box = 360`. -/
def pico_full_box : ℚ := 360

/-- `stepper_panda.Stepper.calc_step`:
`int(round(microstep * gear_teeth * abs(deg) / step_angle))`.
Python's one-argument `round` already returns an integer, so the outer
`int` is the identity. -/
def calc_step (c : StepConfig) (deg : ℚ) : ℤ :=
  pyRound (c.microstep * c.gear_teeth * |deg| / c.step_angle)

/-- `stepper_panda.Stepper.calc_deg`:
`step * step_angle / (microstep * gear_teeth)`. -/
def calc_deg (c : StepConfig) (step : ℚ) : ℚ :=
  step * c.step_angle / (c.microstep * c.gear_teeth)

/-- `sender.Sender.calc_pulses`:
`int(MICROSTEP * GEAR_TEETH * abs(deg) / STEP_ANGLE)`. -/
def calc_pulses (deg : ℚ) : ℤ :=
  pyTrunc (senderConfig.microstep * senderConfig.gear_teeth * |deg|
    / senderConfig.step_angle)

/-- `stepper_pico.Stepper.motor_calc`: `self.pulse_amount =
int(self.microstep * self.gear_teeth * self.direction / self.step_angle)`
where `self.direction` is the requested (signed) rotation in degrees. -/
def pico_pulse_amount (rotation : ℚ) : ℤ :=
  pyTrunc (picoConfig.microstep * picoConfig.gear_teeth * rotation
    / picoConfig.step_angle)

/-- `stepper_pico.Stepper.motor_calc`: `self.box_max =
int(self.microstep * self.gear_teeth * self.full_box / self.step_angle)`. -/
def pico_box_max : ℤ :=
  pyTrunc (picoConfig.microstep * picoConfig.gear_teeth * pico_full_box
    / picoConfig.step_angle)

theorem pyRound_nearest (q : ℚ) : |(pyRound q : ℚ) - q| ≤ 1/2 := by
  have h0 : (⌊q⌋ : ℚ) ≤ q := Int.floor_le q
  have h1 : q < ⌊q⌋ + 1 := Int.lt_floor_add_one q
  unfold pyRound
  split_ifs with hlt hgt heven <;>
    · rw [abs_le]
      constructor <;> push_cast <;> linarith

theorem pyTrunc_intCast (p : ℤ) : pyTrunc (p : ℚ) = p := by
  unfold pyTrunc
  rcases le_or_lt 0 (p : ℚ) with h | h
  · rw [if_pos h, Int.floor_intCast]
  · rw [if_neg (not_le.mpr h), Int.ceil_intCast]

theorem pyTrunc_nonneg {q : ℚ} (h : 0 ≤ q) : 0 ≤ pyTrunc q := by
  unfold pyTrunc
  rw [if_pos h]
  exact Int.floor_nonneg.mpr h

theorem pyTrunc_of_translated_back (m g sa : ℚ) (hm : 0 < m) (hg : 0 < g)
    (hsa : 0 < sa) (p : ℤ) (hp : 0 ≤ p) :
    pyTrunc (m * g * |(p : ℚ) * sa / (m * g)| / sa) = p := by
  have hmg : 0 < m * g := mul_pos hm hg
  have hval : 0 ≤ (p : ℚ) * sa / (m * g) := by
    apply div_nonneg _ hmg.le
    exact mul_nonneg (by exact_mod_cast hp) hsa.le
  rw [abs_of_nonneg hval]
  have hred : m * g * ((p : ℚ) * sa / (m * g)) / sa = (p : ℚ) := by
    field_simp
  rw [hred, pyTrunc_intCast]

/-- C1: the claim states every translation function rounds to nearest.
`Sender.calc_pulses` does not: at `deg = 5` the exact value is
`4 * 113 * 5 / 1.8 = 1255.55…`; `calc_pulses` truncates it to `1255`
(and `motor_calc`'s `pulse_amount` does the same), while rounding to the
nearest integer gives `1256`. -/
theorem C1_translation_counterexample :
    calc_pulses 5 = 1255 ∧ pico_pulse_amount 5 = 1255 ∧
      pyRound (senderConfig.microstep * senderConfig.gear_teeth * |(5 : ℚ)|
        / senderConfig.step_angle) = 1256 ∧ (1255 : ℤ) ≠ 1256 := by
  refine ⟨?_, ?_, ?_, by decide⟩
  · unfold calc_pulses pyTrunc senderConfig
    norm_num
  · unfold pico_pulse_amount pyTrunc picoConfig
    norm_num
  · unfold pyRound senderConfig
    norm_num

/-- C1 (amended): `Stepper.calc_step` rounds to the nearest integer (its
result is within one half of the exact pulse value, for every configuration),
whereas `Sender.calc_pulses` and `motor_calc`'s `pulse_amount` truncate
toward zero: they equal `int()` of the exact value, not `round()` of it. -/
theorem C1_translation_amended :
    (∀ (c : StepConfig) (deg : ℚ),
      |(calc_step c deg : ℚ) - c.microstep * c.gear_teeth * |deg| / c.step_angle|
        ≤ 1/2) ∧
    (∀ deg : ℚ, calc_pulses deg = pyTrunc ((4 : ℚ) * 113 * |deg| / (9/5))) ∧
    (∀ rot : ℚ, pico_pulse_amount rot = pyTrunc ((4 : ℚ) * 113 * rot / (9/5))) := by
  refine ⟨fun c deg => ?_, fun deg => rfl, fun rot => rfl⟩
  exact pyRound_nearest _

/-- C8: round-trip stability of the integer pulse count: translating a pulse
count back to degrees with `calc_deg` (at the sender's constants) and to
pulses again with `calc_pulses` returns the same pulse count, for every
requested angle. -/
theorem C8_roundtrip_stable (deg : ℚ) :
    calc_pulses (calc_deg senderConfig ((calc_pulses deg : ℤ) : ℚ))
      = calc_pulses deg := by
  set p := calc_pulses deg with hpdef
  have hp : 0 ≤ p := by
    rw [hpdef]
    apply pyTrunc_nonneg
    have : (0 : ℚ) ≤ |deg| := abs_nonneg deg
    unfold senderConfig
    positivity
  have h := pyTrunc_of_translated_back (senderConfig.microstep)
    (senderConfig.gear_teeth) (senderConfig.step_angle)
    (by unfold senderConfig; norm_num) (by unfold senderConfig; norm_num)
    (by unfold senderConfig; norm_num) p hp
  unfold calc_pulses calc_deg
  exact h

/-- Device-side state of `stepper_pico.Stepper` (one axis). `dir_val`,
`pulse_val` and `enable_val` record the last value written to the
corresponding output pin; `pulses_emitted` is a ghost counter of the
high-low cycles driven on the pulse pin. -/
structure PicoState where
  cnt : ℤ
  direction : ℤ
  pulse_amount : ℤ
  box_max : ℤ
  cnt_arr : List ℤ
  cnt_ind : ℕ
  save_toggle : Bool
  logs : List (List ℤ)
  dir_val : ℕ
  pulse_val : ℕ
  enable_val : ℕ
  pulses_emitted : ℕ
  cw_direction : ℕ
  ccw_direction : ℕ

/-- `stepper_pico.Stepper.__init__`: zeroed counter, a `save_size = 1000`
slot snapshot buffer, saving controlled by `toggle`, enable pin driven
high (motor disabled). `direction`, `pulse_amount` and `box_max` do not
exist as attributes until `motor_calc` runs; they are zero-initialised here
and every use below goes through `motor_calc` first. -/
def initPico (toggle : Bool) (cw ccw : ℕ) : PicoState :=
  { cnt := 0, direction := 0, pulse_amount := 0, box_max := 0,
    cnt_arr := List.replicate 1000 0, cnt_ind := 0, save_toggle := toggle,
    logs := [], dir_val := 0, pulse_val := 0, enable_val := 1,
    pulses_emitted := 0, cw_direction := cw, ccw_direction := ccw }

/-- `stepper_pico.Stepper.motor_calc`: stores the requested signed rotation
as `direction`, reloads the persisted count (`loaded`; 0 when no log
exists), computes `pulse_amount` and `box_max`, and drives the enable pin
low (enabled). The pulse delay only affects timing and is not modelled. -/
def motor_calc (s : PicoState) (rotation : ℤ) (loaded : ℤ) : PicoState :=
  { s with
    direction := rotation, cnt := loaded,
    pulse_amount := pico_pulse_amount (rotation : ℚ),
    box_max := pico_box_max, enable_val := 0 }

/-- `stepper_pico.Stepper.save`: when saving is enabled the array is dumped
to a fresh timestamped json log. The list/`isinstance` guard always passes
for a list of integers; a failed write is caught and only printed, so
write failures are not modelled. -/
def save (s : PicoState) (array : List ℤ) : PicoState :=
  if s.save_toggle then { s with logs := s.logs ++ [array] } else s

/-- First phase of `stepper_pico.Stepper.move`: set the direction pin and
increment or decrement the cumulative count depending on the sign of
`direction` (two independent `if`s in the source). -/
def moveDirPin (s : PicoState) : PicoState :=
  let s1 := if 0 < s.direction
    then { s with dir_val := s.cw_direction, cnt := s.cnt + 1 } else s
  if s1.direction < 0
    then { s1 with dir_val := s1.ccw_direction, cnt := s1.cnt - 1 } else s1

/-- Second phase of `move`: drive the pulse pin high, hold, drive it low,
hold. The pin ends low and one pulse has been emitted. -/
def movePulse (s : PicoState) : PicoState :=
  { s with pulse_val := 0, pulses_emitted := s.pulses_emitted + 1 }

/-- Third phase of `move`: append the new count to the snapshot buffer;
when the buffer fills, flush the whole buffer with `save` and reset it to
all zeros with index 0. -/
def moveRecord (s : PicoState) : PicoState :=
  if s.cnt_ind < s.cnt_arr.length then
    let s1 := { s with
      cnt_arr := s.cnt_arr.set s.cnt_ind s.cnt,
      cnt_ind := s.cnt_ind + 1 }
    if s1.cnt_arr.length ≤ s1.cnt_ind then
      let s2 := save s1 s1.cnt_arr
      { s2 with cnt_arr := List.replicate s2.cnt_arr.length 0, cnt_ind := 0 }
    else s1
  else s

/-- `stepper_pico.Stepper.move`: one atomic step. -/
def move (s : PicoState) : PicoState :=
  moveRecord (movePulse (moveDirPin s))

/-- `stepper_pico.Stepper.check` with `inf=True`: when the cumulative count
has reached two full box rotations, flip `direction` in place (and sleep).
This branch writes no pin. -/
def checkInf (s : PicoState) : PicoState :=
  if |s.cnt| ≥ |2 * s.box_max| then { s with direction := -s.direction }
  else s

/-- `stepper_pico.Stepper.check` with `inf=False`: when the count reaches
the commanded `pulse_amount` (or two box rotations), force the pulse pin
low, drive enable high (disabled) and return 0. The boolean is true when
the function returned 0, breaking the caller's loop. -/
def checkBounded (s : PicoState) : PicoState × Bool :=
  if |s.cnt| ≥ |s.pulse_amount| ∨ |s.cnt| ≥ 2 * s.box_max then
    ({ s with pulse_val := 0, enable_val := 1 }, true)
  else (s, false)

/-- `stepper_pico.Stepper.close`: force the pulse pin low and disable the
driver, then flush the unflushed buffer prefix `cnt_arr[0:cnt_ind]` and
reset the buffer. -/
def close (s : PicoState) : PicoState :=
  let s1 : PicoState := { s with pulse_val := 0, enable_val := 1 }
  if s1.cnt_arr ≠ [] ∧ 0 < s1.cnt_ind then
    let s2 := save s1 (s1.cnt_arr.take s1.cnt_ind)
    { s2 with cnt_arr := List.replicate s2.cnt_arr.length 0, cnt_ind := 0 }
  else s1

/-- One pending line of serial input on the device's stdin. -/
abbrev InputLine := List Char

/-- A device together with the lines it has received but not yet read. -/
structure Device where
  st : PicoState
  inbox : List InputLine

/-- Bounded-mode inner loop of `main_function` in
`scripts/python_scripts/main.py`: repeatedly `move()` then
`check(inf=False)` until `check` returns 0. The loop body contains no read
from stdin, so `inbox` is carried through untouched. `fuel` bounds the
recursion; `none` means the fuel ran out before the loop ended. -/
def runBounded : ℕ → Device → Option Device
  | 0, _ => none
  | fuel + 1, d =>
    let s1 := move d.st
    let r := checkBounded s1
    if r.2 then some ⟨r.1, d.inbox⟩ else runBounded fuel ⟨r.1, d.inbox⟩

/-- The serialized stop sentinel sent by the host (`json.dumps(["STOP"])`). -/
def stopLine : InputLine := "[\"STOP\"]".data

/-- Operations a caller can perform on a device-side `Stepper` after
`motor_calc`: a `move()` step or a `close()`. -/
inductive StepperOp
  | move
  | close

def runOp (s : PicoState) : StepperOp → PicoState
  | .move => move s
  | .close => close s

def runOps (s : PicoState) : List StepperOp → PicoState
  | [] => s
  | op :: ops => runOps (runOp s op) ops

/-- The step-count snapshots recorded (appended to the buffer) along a
sequence of operations: one per `move`, with the value the count has just
after that move's increment. -/
def recordedCounts (s : PicoState) : List StepperOp → List ℤ
  | [] => []
  | .move :: ops => (move s).cnt :: recordedCounts (move s) ops
  | .close :: ops => recordedCounts (close s) ops

/-- The representation invariant of the snapshot buffer: it is nonempty and
the write index stays strictly below its length (the source resets the
index eagerly when it reaches the length). -/
def picoInv (s : PicoState) : Prop :=
  0 < s.cnt_arr.length ∧ s.cnt_ind < s.cnt_arr.length

instance (s : PicoState) : Decidable (picoInv s) := by
  unfold picoInv
  infer_instance

theorem moveDirPin_of_pos {s : PicoState} (h : 0 < s.direction) :
    moveDirPin s = { s with dir_val := s.cw_direction, cnt := s.cnt + 1 } := by
  unfold moveDirPin
  dsimp only
  rw [if_pos h]
  dsimp only
  rw [if_neg (by omega)]

theorem moveDirPin_of_neg {s : PicoState} (h : s.direction < 0) :
    moveDirPin s = { s with dir_val := s.ccw_direction, cnt := s.cnt - 1 } := by
  unfold moveDirPin
  dsimp only
  rw [if_neg (by omega : ¬0 < s.direction)]
  rw [if_pos h]

theorem moveRecord_proj (s : PicoState) :
    (moveRecord s).cnt = s.cnt ∧ (moveRecord s).direction = s.direction ∧
      (moveRecord s).pulse_amount = s.pulse_amount ∧
      (moveRecord s).box_max = s.box_max ∧
      (moveRecord s).pulses_emitted = s.pulses_emitted ∧
      (moveRecord s).save_toggle = s.save_toggle ∧
      (moveRecord s).pulse_val = s.pulse_val ∧
      (moveRecord s).enable_val = s.enable_val := by
  unfold moveRecord save
  dsimp only
  split_ifs <;> simp

theorem moveDirPin_proj (s : PicoState) :
    (moveDirPin s).direction = s.direction ∧
      (moveDirPin s).pulse_amount = s.pulse_amount ∧
      (moveDirPin s).box_max = s.box_max ∧
      (moveDirPin s).pulses_emitted = s.pulses_emitted ∧
      (moveDirPin s).save_toggle = s.save_toggle ∧
      (moveDirPin s).cnt_arr = s.cnt_arr ∧
      (moveDirPin s).cnt_ind = s.cnt_ind ∧
      (moveDirPin s).logs = s.logs := by
  unfold moveDirPin
  dsimp only
  split_ifs <;> simp

theorem move_proj (s : PicoState) :
    (move s).direction = s.direction ∧
      (move s).pulse_amount = s.pulse_amount ∧
      (move s).box_max = s.box_max ∧
      (move s).pulses_emitted = s.pulses_emitted + 1 ∧
      (move s).save_toggle = s.save_toggle := by
  obtain ⟨r1, r2, r3, r4, r5, r6, -, -⟩ :=
    moveRecord_proj (movePulse (moveDirPin s))
  obtain ⟨d1, d2, d3, d4, d5, -, -, -⟩ := moveDirPin_proj s
  unfold move
  unfold movePulse at r1 r2 r3 r4 r5 r6 ⊢
  refine ⟨?_, ?_, ?_, ?_, ?_⟩ <;> simp_all

theorem move_cnt (s : PicoState) :
    (move s).cnt = (moveDirPin s).cnt := by
  obtain ⟨r1, -⟩ := moveRecord_proj (movePulse (moveDirPin s))
  unfold move
  unfold movePulse at r1 ⊢
  simpa using r1

theorem move_cnt_of_pos {s : PicoState} (h : 0 < s.direction) :
    (move s).cnt = s.cnt + 1 := by
  rw [move_cnt, moveDirPin_of_pos h]

theorem move_cnt_of_neg {s : PicoState} (h : s.direction < 0) :
    (move s).cnt = s.cnt - 1 := by
  rw [move_cnt, moveDirPin_of_neg h]

theorem checkBounded_of_done {s : PicoState}
    (h : |s.cnt| ≥ |s.pulse_amount| ∨ |s.cnt| ≥ 2 * s.box_max) :
    checkBounded s = ({ s with pulse_val := 0, enable_val := 1 }, true) := by
  unfold checkBounded
  rw [if_pos h]

theorem checkBounded_of_running {s : PicoState}
    (h : ¬(|s.cnt| ≥ |s.pulse_amount| ∨ |s.cnt| ≥ 2 * s.box_max)) :
    checkBounded s = (s, false) := by
  unfold checkBounded
  rw [if_neg h]

theorem checkInf_direction (s : PicoState) :
    (checkInf s).direction =
      if |s.cnt| ≥ |2 * s.box_max| then -s.direction else s.direction := by
  unfold checkInf
  split_ifs <;> rfl

theorem checkInf_proj (s : PicoState) :
    (checkInf s).cnt = s.cnt ∧ (checkInf s).box_max = s.box_max ∧
      (checkInf s).enable_val = s.enable_val ∧
      (checkInf s).pulse_val = s.pulse_val := by
  unfold checkInf
  split_ifs <;> exact ⟨rfl, rfl, rfl, rfl⟩

theorem runBounded_total (n : ℕ) :
    ∀ (fuel : ℕ) (s : PicoState) (inbox : List InputLine),
      0 < s.direction → 0 ≤ s.cnt → s.cnt + n = s.pulse_amount →
      s.pulse_amount ≤ 2 * s.box_max → 0 < n → n ≤ fuel →
      ∃ t : Device, runBounded fuel ⟨s, inbox⟩ = some t ∧
        t.inbox = inbox ∧
        t.st.pulses_emitted = s.pulses_emitted + n ∧
        t.st.cnt = s.pulse_amount := by
  induction n with
  | zero => omega
  | succ m ih =>
    intro fuel s inbox hdir hcnt hsum hbox hpos hfuel
    obtain ⟨f1, rfl⟩ : ∃ f1, fuel = f1 + 1 := ⟨fuel - 1, by omega⟩
    obtain ⟨-, hpa, hbm, hpe, -⟩ := move_proj s
    have hc1 : (move s).cnt = s.cnt + 1 := move_cnt_of_pos hdir
    have hdir1 : (move s).direction = s.direction := (move_proj s).1
    rcases Nat.eq_zero_or_pos m with hm | hm
    · subst hm
      have hdone : |(move s).cnt| ≥ |(move s).pulse_amount| ∨
          |(move s).cnt| ≥ 2 * (move s).box_max := by
        left
        rw [hc1, hpa]
        have : s.cnt + 1 = s.pulse_amount := by omega
        rw [this, abs_of_nonneg (by omega : (0:ℤ) ≤ s.pulse_amount)]
      refine ⟨⟨{ move s with pulse_val := 0, enable_val := 1 }, inbox⟩, ?_, rfl, ?_, ?_⟩
      · unfold runBounded
        dsimp only
        rw [checkBounded_of_done hdone]
        rfl
      · dsimp only
        omega
      · dsimp only
        rw [hc1]
        omega
    · have hrun : ¬(|(move s).cnt| ≥ |(move s).pulse_amount| ∨
          |(move s).cnt| ≥ 2 * (move s).box_max) := by
        rw [hc1, hpa, hbm]
        push_neg
        constructor
        · rw [abs_of_nonneg (by omega : (0:ℤ) ≤ s.cnt + 1),
            abs_of_nonneg (by omega : (0:ℤ) ≤ s.pulse_amount)]
          omega
        · rw [abs_of_nonneg (by omega : (0:ℤ) ≤ s.cnt + 1)]
          omega
      obtain ⟨t, ht, hti, htp, htc⟩ := ih f1 (move s) inbox
        (by rw [hdir1]; exact hdir) (by omega) (by omega)
        (by rw [hpa, hbm]; omega) hm (by omega)
      refine ⟨t, ?_, hti, ?_, ?_⟩
      · unfold runBounded
        dsimp only
        rw [checkBounded_of_running hrun]
        dsimp only
        exact ht
      · rw [htp, hpe]
        omega
      · rw [htc, hpa]

/-- C2: the claim says that after a stop sentinel is received the device
emits at most one further pulse, the inner step loop polling for the stop
between pulses. It does not: `main_function`'s inner loop never reads
stdin. Concretely, with the stop line already received (sitting in the
inbox) before a bounded 1-degree azimuth command starts, the device emits
the command's full 251 pulses and the stop line is still unread when the
loop ends. -/
theorem C2_stop_latency_counterexample :
    (runBounded 300 ⟨motor_calc (initPico true 0 1) 1 0, [stopLine]⟩).map
        (fun t => (t.st.pulses_emitted, t.inbox))
      = some (251, [stopLine]) ∧ ¬(251 ≤ 1) := by
  have hpa : pico_pulse_amount ((1 : ℤ) : ℚ) = 251 := by
    unfold pico_pulse_amount pyTrunc picoConfig
    norm_num
  have hbm : pico_box_max = 90400 := by
    unfold pico_box_max pyTrunc picoConfig pico_full_box
    norm_num
  obtain ⟨t, ht, hti, htp, -⟩ :=
    runBounded_total 251 300 (motor_calc (initPico true 0 1) 1 0) [stopLine]
      (by unfold motor_calc; dsimp only; omega)
      (by unfold motor_calc initPico; dsimp only; omega)
      (by unfold motor_calc initPico; dsimp only; rw [hpa]; norm_num)
      (by unfold motor_calc; dsimp only; rw [hpa, hbm]; omega)
      (by omega) (by omega)
  refine ⟨?_, by omega⟩
  rw [ht]
  have hpe0 : (motor_calc (initPico true 0 1) 1 0).pulses_emitted = 0 := rfl
  show some (t.st.pulses_emitted, t.inbox) = some (251, [stopLine])
  rw [hti, htp, hpe0]

/-- C2 (amended): the device reads lines, including the stop sentinel, only
between whole commands. The bounded inner step loop of `main_function`
never polls the input: if a stop line has been received before or during a
command that still has `n` pulses to emit, the device emits all `n`
remaining pulses, and the stop line is still unread (the inbox unchanged)
when the loop exits. -/
theorem C2_stop_read_only_between_commands (d : Device) (n fuel : ℕ)
    (hstop : stopLine ∈ d.inbox) (hdir : 0 < d.st.direction)
    (hcnt : 0 ≤ d.st.cnt) (hsum : d.st.cnt + n = d.st.pulse_amount)
    (hbox : d.st.pulse_amount ≤ 2 * d.st.box_max) (hpos : 0 < n)
    (hfuel : n ≤ fuel) :
    ∃ t : Device, runBounded fuel d = some t ∧ t.inbox = d.inbox ∧
      stopLine ∈ t.inbox ∧
      t.st.pulses_emitted = d.st.pulses_emitted + n := by
  obtain ⟨t, ht, hti, htp, -⟩ :=
    runBounded_total n fuel d.st d.inbox hdir hcnt hsum hbox hpos hfuel
  exact ⟨t, ht, hti, by rw [hti]; exact hstop, htp⟩

/-- A small concrete device state (fields as after `motor_calc` with a
2-pulse command, a 3-slot buffer) used by the closed instances below. -/
def picoSmall : PicoState :=
  { cnt := 0, direction := 1, pulse_amount := 2, box_max := 5,
    cnt_arr := [0, 0, 0], cnt_ind := 0, save_toggle := true, logs := [],
    dir_val := 0, pulse_val := 0, enable_val := 0, pulses_emitted := 0,
    cw_direction := 0, ccw_direction := 1 }

theorem C2_stop_read_only_between_commands_witness :
    ∃ t : Device, runBounded 10 ⟨picoSmall, [stopLine]⟩ = some t ∧
      t.inbox = [stopLine] ∧ stopLine ∈ t.inbox ∧
      t.st.pulses_emitted = picoSmall.pulses_emitted + 2 :=
  C2_stop_read_only_between_commands ⟨picoSmall, [stopLine]⟩ 2 10
    (by simp) (by decide) (by decide) (by decide) (by decide) (by decide)
    (by decide)

/-- C3: in continuous (`inf`) mode, `check` flips the sign of `direction`
exactly when `|cnt|` has reached `2 * box_max` (first conjunct); the flip
branch writes neither the enable nor the pulse output (second conjunct);
and per threshold crossing the flip happens exactly once: when a move
first takes `|cnt|` to the threshold, that `check` flips the direction and
the following move/check iteration leaves the direction unchanged (third
conjunct). -/
theorem C3_continuous_reversal :
    (∀ s : PicoState, (checkInf s).direction =
        (if |s.cnt| ≥ |2 * s.box_max| then -s.direction else s.direction)) ∧
    (∀ s : PicoState, (checkInf s).enable_val = s.enable_val ∧
        (checkInf s).pulse_val = s.pulse_val ∧ (checkInf s).cnt = s.cnt) ∧
    (∀ s : PicoState, 0 < s.box_max → s.direction ≠ 0 →
        |s.cnt| < 2 * s.box_max → 2 * s.box_max ≤ |(move s).cnt| →
          |(move s).cnt| = 2 * s.box_max ∧
          (checkInf (move s)).direction = -s.direction ∧
          (checkInf (move (checkInf (move s)))).direction
            = (checkInf (move s)).direction) := by
  refine ⟨checkInf_direction, fun s => ?_, fun s hB hd hlt hge => ?_⟩
  · obtain ⟨h1, -, h3, h4⟩ := checkInf_proj s
    exact ⟨h3, h4, h1⟩
  have habs : |(2 : ℤ) * s.box_max| = 2 * s.box_max :=
    abs_of_nonneg (by omega)
  obtain ⟨hdir1, -, hbm1, -, -⟩ := move_proj s
  obtain ⟨hlt1, hlt2⟩ := abs_lt.mp hlt
  have hge2 := le_abs.mp hge
  rcases hd.lt_or_lt with hneg | hpos
  · have hc1 : (move s).cnt = s.cnt - 1 := move_cnt_of_neg hneg
    have hcval : (move s).cnt = -(2 * s.box_max) := by omega
    have heq : |(move s).cnt| = 2 * s.box_max := by
      rw [hcval, abs_neg, habs]
    have hflip : (checkInf (move s)).direction = -s.direction := by
      rw [checkInf_direction, hbm1, habs, if_pos (le_of_eq heq.symm), hdir1]
    refine ⟨heq, hflip, ?_⟩
    have hc2 : (checkInf (move s)).cnt = -(2 * s.box_max) := by
      rw [(checkInf_proj (move s)).1, hcval]
    have hc3 : (move (checkInf (move s))).cnt = -(2 * s.box_max) + 1 := by
      rw [move_cnt_of_pos (by rw [hflip]; omega), hc2]
    have hbm3 : (move (checkInf (move s))).box_max = s.box_max := by
      rw [(move_proj (checkInf (move s))).2.2.1, (checkInf_proj (move s)).2.1,
        hbm1]
    have hcond : ¬(|(move (checkInf (move s))).cnt|
        ≥ |2 * (move (checkInf (move s))).box_max|) := by
      rw [hc3, hbm3, habs]
      rw [show -(2 * s.box_max) + 1 = -(2 * s.box_max - 1) by ring, abs_neg,
        abs_of_nonneg (by omega : (0 : ℤ) ≤ 2 * s.box_max - 1)]
      omega
    rw [checkInf_direction, if_neg hcond]
    exact (move_proj (checkInf (move s))).1
  · have hc1 : (move s).cnt = s.cnt + 1 := move_cnt_of_pos hpos
    have hcval : (move s).cnt = 2 * s.box_max := by omega
    have heq : |(move s).cnt| = 2 * s.box_max := by
      rw [hcval, habs]
    have hflip : (checkInf (move s)).direction = -s.direction := by
      rw [checkInf_direction, hbm1, habs, if_pos (le_of_eq heq.symm), hdir1]
    refine ⟨heq, hflip, ?_⟩
    have hc2 : (checkInf (move s)).cnt = 2 * s.box_max := by
      rw [(checkInf_proj (move s)).1, hcval]
    have hc3 : (move (checkInf (move s))).cnt = 2 * s.box_max - 1 := by
      rw [move_cnt_of_neg (by rw [hflip]; omega), hc2]
    have hbm3 : (move (checkInf (move s))).box_max = s.box_max := by
      rw [(move_proj (checkInf (move s))).2.2.1, (checkInf_proj (move s)).2.1,
        hbm1]
    have hcond : ¬(|(move (checkInf (move s))).cnt|
        ≥ |2 * (move (checkInf (move s))).box_max|) := by
      rw [hc3, hbm3, habs,
        abs_of_nonneg (by omega : (0 : ℤ) ≤ 2 * s.box_max - 1)]
      omega
    rw [checkInf_direction, if_neg hcond]
    exact (move_proj (checkInf (move s))).1

theorem take_set_eq_take_append {α : Type} :
    ∀ (l : List α) (i : ℕ) (x : α), i < l.length →
      (l.set i x).take (i + 1) = l.take i ++ [x]
  | [], i, x, h => by simp at h
  | a :: t, 0, x, _ => by simp
  | a :: t, i + 1, x, h => by
    have ih := take_set_eq_take_append t i x (by simpa using Nat.lt_of_succ_lt_succ h)
    simp only [List.set, List.take, List.cons_append]
    rw [ih]

theorem set_last_eq_take_append {α : Type} (l : List α) (i : ℕ) (x : α)
    (h : i + 1 = l.length) : l.set i x = l.take i ++ [x] := by
  have h1 := take_set_eq_take_append l i x (by omega)
  rwa [h, ← List.length_set l i x, List.take_length] at h1

theorem moveRecord_no_flush {s : PicoState}
    (h : s.cnt_ind + 1 < s.cnt_arr.length) :
    moveRecord s = { s with
      cnt_arr := s.cnt_arr.set s.cnt_ind s.cnt,
      cnt_ind := s.cnt_ind + 1 } := by
  unfold moveRecord
  dsimp only
  rw [if_pos (by omega), if_neg (by simp only [List.length_set]; omega)]

theorem moveRecord_flush {s : PicoState}
    (h : s.cnt_ind + 1 = s.cnt_arr.length) :
    moveRecord s =
      if s.save_toggle then
        { s with cnt_arr := List.replicate s.cnt_arr.length 0, cnt_ind := 0,
                 logs := s.logs ++ [s.cnt_arr.set s.cnt_ind s.cnt] }
      else
        { s with cnt_arr := List.replicate s.cnt_arr.length 0,
                 cnt_ind := 0 } := by
  unfold moveRecord save
  dsimp only
  rw [if_pos (by omega), if_pos (by simp only [List.length_set]; omega)]
  split_ifs <;> simp [List.length_set]

theorem close_of_pending {s : PicoState} (hne : s.cnt_arr ≠ [])
    (hpos : 0 < s.cnt_ind) :
    close s =
      if s.save_toggle then
        { s with pulse_val := 0, enable_val := 1,
                 cnt_arr := List.replicate s.cnt_arr.length 0, cnt_ind := 0,
                 logs := s.logs ++ [s.cnt_arr.take s.cnt_ind] }
      else
        { s with pulse_val := 0, enable_val := 1,
                 cnt_arr := List.replicate s.cnt_arr.length 0,
                 cnt_ind := 0 } := by
  unfold close save
  dsimp only
  rw [if_pos ⟨hne, hpos⟩]
  split_ifs <;> simp

theorem close_of_empty {s : PicoState} (h : s.cnt_ind = 0) :
    close s = { s with pulse_val := 0, enable_val := 1 } := by
  unfold close
  dsimp only
  rw [if_neg (by omega)]

/-- The snapshots persisted so far followed by the pending, unflushed
buffer prefix: the full record of step-count snapshots. -/
def tape (s : PicoState) : List ℤ :=
  s.logs.flatten ++ s.cnt_arr.take s.cnt_ind

theorem movePre_proj (s : PicoState) :
    (movePulse (moveDirPin s)).cnt_arr = s.cnt_arr ∧
      (movePulse (moveDirPin s)).cnt_ind = s.cnt_ind ∧
      (movePulse (moveDirPin s)).logs = s.logs ∧
      (movePulse (moveDirPin s)).save_toggle = s.save_toggle ∧
      (movePulse (moveDirPin s)).cnt = (move s).cnt := by
  obtain ⟨-, -, -, -, a5, a6, a7, a8⟩ := moveDirPin_proj s
  unfold movePulse
  exact ⟨a6, a7, a8, a5, (move_cnt s).symm⟩

theorem picoInv_move {s : PicoState} (h : picoInv s) : picoInv (move s) := by
  obtain ⟨hlen, hind⟩ := h
  obtain ⟨b1, b2, -, -, -⟩ := movePre_proj s
  have hXlen : (movePulse (moveDirPin s)).cnt_arr.length
      = s.cnt_arr.length := congrArg List.length b1
  unfold move
  rcases Nat.lt_or_ge (s.cnt_ind + 1) s.cnt_arr.length with hc | hc
  · rw [moveRecord_no_flush (by omega)]
    refine ⟨?_, ?_⟩ <;> dsimp only <;> simp only [List.length_set] <;> omega
  · rw [moveRecord_flush (by omega :
      (movePulse (moveDirPin s)).cnt_ind + 1
        = (movePulse (moveDirPin s)).cnt_arr.length)]
    split_ifs <;>
      refine ⟨?_, ?_⟩ <;> dsimp only <;> simp only [List.length_replicate] <;>
        omega

theorem picoInv_close {s : PicoState} (h : picoInv s) : picoInv (close s) := by
  obtain ⟨hlen, hind⟩ := h
  rcases Nat.eq_zero_or_pos s.cnt_ind with h0 | h0
  · rw [close_of_empty h0]
    refine ⟨?_, ?_⟩ <;> dsimp only <;> omega
  · rw [close_of_pending (List.ne_nil_of_length_pos hlen) h0]
    split_ifs <;>
      refine ⟨?_, ?_⟩ <;> dsimp only <;> simp only [List.length_replicate] <;>
        omega

theorem move_proj_toggle (s : PicoState) :
    (move s).save_toggle = s.save_toggle := (move_proj s).2.2.2.2

theorem close_proj_toggle (s : PicoState) :
    (close s).save_toggle = s.save_toggle := by
  unfold close save
  dsimp only
  split_ifs <;> rfl

theorem move_tape {s : PicoState} (hinv : picoInv s)
    (ht : s.save_toggle = true) :
    tape (move s) = tape s ++ [(move s).cnt] := by
  obtain ⟨hlen, hind⟩ := hinv
  obtain ⟨b1, b2, b3, b4, b5⟩ := movePre_proj s
  have hXlen : (movePulse (moveDirPin s)).cnt_arr.length
      = s.cnt_arr.length := congrArg List.length b1
  unfold move tape
  rcases Nat.lt_or_ge (s.cnt_ind + 1) s.cnt_arr.length with hc | hc
  · rw [moveRecord_no_flush (by omega)]
    dsimp only
    rw [b1, b2, b3, b5, take_set_eq_take_append s.cnt_arr s.cnt_ind _ hind]
    simp
  · rw [moveRecord_flush (by omega :
      (movePulse (moveDirPin s)).cnt_ind + 1
        = (movePulse (moveDirPin s)).cnt_arr.length)]
    rw [if_pos (by rw [b4]; exact ht)]
    dsimp only
    rw [b1, b2, b3, b5,
      set_last_eq_take_append s.cnt_arr s.cnt_ind _ (by omega)]
    simp

theorem close_tape {s : PicoState} (hinv : picoInv s)
    (ht : s.save_toggle = true) : tape (close s) = tape s := by
  obtain ⟨hlen, hind⟩ := hinv
  rcases Nat.eq_zero_or_pos s.cnt_ind with h0 | h0
  · rw [close_of_empty h0]
    unfold tape
    rw [h0]
  · rw [close_of_pending (List.ne_nil_of_length_pos hlen) h0, if_pos ht]
    unfold tape
    simp

theorem runOps_tape :
    ∀ (ops : List StepperOp) (s : PicoState), picoInv s →
      s.save_toggle = true →
      picoInv (runOps s ops) ∧ (runOps s ops).save_toggle = true ∧
        tape (runOps s ops) = tape s ++ recordedCounts s ops
  | [], s, hinv, ht => by
    refine ⟨hinv, ht, ?_⟩
    show tape s = tape s ++ ([] : List ℤ)
    simp
  | StepperOp.move :: ops, s, hinv, ht => by
    have hrec := runOps_tape ops (move s) (picoInv_move hinv)
      (by rw [move_proj_toggle]; exact ht)
    refine ⟨hrec.1, hrec.2.1, ?_⟩
    show tape (runOps (move s) ops)
      = tape s ++ ((move s).cnt :: recordedCounts (move s) ops)
    rw [hrec.2.2, move_tape hinv ht]
    simp
  | StepperOp.close :: ops, s, hinv, ht => by
    have hrec := runOps_tape ops (close s) (picoInv_close hinv)
      (by rw [close_proj_toggle]; exact ht)
    refine ⟨hrec.1, hrec.2.1, ?_⟩
    show tape (runOps (close s) ops)
      = tape s ++ recordedCounts (close s) ops
    rw [hrec.2.2, close_tape hinv ht]

theorem picoInv_runOps :
    ∀ (ops : List StepperOp) (s : PicoState), picoInv s →
      picoInv (runOps s ops)
  | [], _, hinv => hinv
  | StepperOp.move :: ops, s, hinv =>
    picoInv_runOps ops (move s) (picoInv_move hinv)
  | StepperOp.close :: ops, s, hinv =>
    picoInv_runOps ops (close s) (picoInv_close hinv)

/-- C5: across every sequence of `move`/`close` operations from a state
satisfying the buffer invariant, the write index stays in
`[0, save_size]` (first conjunct; the index is in fact kept strictly below
the buffer length); when a `move` fills the last slot the whole buffer is
flushed as one log and reset to all zeros with index 0 (second conjunct);
`close` flushes exactly the prefix `cnt_arr[0:cnt_ind]` and resets (third
conjunct); with saving enabled the persisted logs plus the pending
prefix equal exactly the snapshots recorded so far — nothing is dropped
(fourth conjunct); and the state produced by the constructor followed by
`motor_calc` satisfies the invariant, grounding the hypotheses (fifth
conjunct). -/
theorem C5_buffer_flush_invariant :
    (∀ (s : PicoState) (ops : List StepperOp), picoInv s →
        (runOps s ops).cnt_ind ≤ (runOps s ops).cnt_arr.length) ∧
    (∀ s : PicoState, picoInv s → s.cnt_ind + 1 = s.cnt_arr.length →
        (move s).cnt_ind = 0 ∧
        (move s).cnt_arr = List.replicate s.cnt_arr.length 0 ∧
        (s.save_toggle = true →
          (move s).logs = s.logs ++ [s.cnt_arr.set s.cnt_ind (move s).cnt])) ∧
    (∀ s : PicoState, picoInv s → 0 < s.cnt_ind → s.save_toggle = true →
        (close s).logs = s.logs ++ [s.cnt_arr.take s.cnt_ind] ∧
        (close s).cnt_ind = 0 ∧
        (close s).cnt_arr = List.replicate s.cnt_arr.length 0) ∧
    (∀ (s : PicoState) (ops : List StepperOp), picoInv s →
        s.save_toggle = true →
        tape (runOps s ops) = tape s ++ recordedCounts s ops) ∧
    (∀ (toggle : Bool) (cw ccw : ℕ) (rot loaded : ℤ),
        picoInv (motor_calc (initPico toggle cw ccw) rot loaded)) := by
  refine ⟨?_, ?_, ?_, fun s ops hinv ht => (runOps_tape ops s hinv ht).2.2,
    fun toggle cw ccw rot loaded =>
      ⟨by show 0 < (List.replicate 1000 (0:ℤ)).length
          rw [List.length_replicate]
          norm_num,
       by show 0 < (List.replicate 1000 (0:ℤ)).length
          rw [List.length_replicate]
          norm_num⟩⟩
  · intro s ops hinv
    exact le_of_lt (picoInv_runOps ops s hinv).2
  · intro s hinv hfull
    obtain ⟨b1, b2, b3, b4, b5⟩ := movePre_proj s
    have hc2 : (movePulse (moveDirPin s)).cnt_ind + 1
        = (movePulse (moveDirPin s)).cnt_arr.length := by
      rw [b1, b2]
      omega
    constructor
    · show (moveRecord (movePulse (moveDirPin s))).cnt_ind = 0
      rw [moveRecord_flush hc2]
      split_ifs <;> rfl
    constructor
    · show (moveRecord (movePulse (moveDirPin s))).cnt_arr = _
      rw [moveRecord_flush hc2]
      split_ifs <;> · dsimp only; rw [b1]
    · intro ht
      show (moveRecord (movePulse (moveDirPin s))).logs = _
      rw [moveRecord_flush hc2, if_pos (by rw [b4]; exact ht)]
      dsimp only
      rw [b1, b2, b3, b5]
  · intro s hinv hpos ht
    rw [close_of_pending (List.ne_nil_of_length_pos hinv.1) hpos, if_pos ht]
    exact ⟨rfl, rfl, rfl⟩

/-- Python `str.split(sep)` for a one-character separator, modelled on the
character list of the string; always returns at least one part. -/
def pySplit (sep : Char) : List Char → List (List Char)
  | [] => [[]]
  | c :: rest =>
    let r := pySplit sep rest
    if c = sep then [] :: r
    else (c :: r.headD []) :: r.tail

/-- The value of one decimal digit character. -/
def digitVal (c : Char) : Option ℕ :=
  if '0' ≤ c ∧ c ≤ '9' then some (c.toNat - '0'.toNat) else none

def parseDigits (l : List Char) : Option ℕ :=
  if l = [] then none
  else l.foldl (fun acc c =>
    match acc, digitVal c with
    | some n, some d => some (10 * n + d)
    | _, _ => none) (some 0)

/-- Python `int(s)` on a decimal string: optional sign then digits;
anything else raises `ValueError`, modelled as `none`. -/
def pyInt : List Char → Option ℤ
  | '-' :: rest => (parseDigits rest).map (fun n => -(n : ℤ))
  | '+' :: rest => (parseDigits rest).map (fun n => (n : ℤ))
  | l => (parseDigits l).map (fun n => (n : ℤ))

abbrev FileName := List Char

/-- The device's filesystem: the directory listing with each file's parsed
integer-array content. -/
abbrev PicoFS := List (FileName × List ℤ)

/-- The name stem `f"{name}_step_log"` that `Stepper.look` filters on. -/
def stepLogStem (name : List Char) : List Char := name ++ "_step_log".data

/-- The sort key of `Stepper.look`:
`int(f.split('_')[-1].split('.')[0])`. `none` when `int()` would raise on
a name with a malformed tag. -/
def lookKey (f : FileName) : Option ℤ :=
  pyInt ((pySplit '.' ((pySplit '_' f).getLastD [])).headD [])

/-- One step of the maximum selection in `Stepper.look`, used only once
every matching name's key is known to parse. The source sorts ascending by
key with Python's stable sort and takes the last element, which is the
right-most name with the maximal key; the fold below keeps the later name
on equal keys, realising exactly that. -/
def lookPick (best : Option FileName) (f : FileName) : Option FileName :=
  match best with
  | none => some f
  | some g =>
    if (lookKey g).getD 0 ≤ (lookKey f).getD 0 then some f else some g

/-- `Stepper.look`: `Python None` (`.ok none`) when no name starts with
`f"{name}_step_log"`; otherwise `logs.sort(key=...)` evaluates the key of
every matching name — if any key's `int()` raises `ValueError` the
exception escapes `look` (`.error ()`); with all keys parsed the sorted
list's last element is the right-most name with the maximal key. -/
def look (listing : List FileName) (name : List Char) :
    Except Unit (Option FileName) :=
  let logs := listing.filter (fun f => (stepLogStem name).isPrefixOf f)
  if logs = [] then .ok none
  else if logs.all (fun f => (lookKey f).isSome) then
    .ok (logs.foldl lookPick none)
  else .error ()

/-- `Stepper.load`: pick the newest matching log with `look` and return the
last element of the integer array stored in it; 0 when there is no log, or
when opening, parsing or indexing the array raises (the source catches
every exception raised inside its `try` and returns 0, and an empty array
makes `steps[-1]` raise `IndexError` there). The call to `look()` happens
before the `try`, so a `ValueError` raised by `look`'s sort key escapes
`load` uncaught (`.error ()`): on such listings `load` never returns. -/
def load (fs : PicoFS) (name : List Char) : Except Unit ℤ :=
  match look (fs.map Prod.fst) name with
  | .error e => .error e
  | .ok none => .ok 0
  | .ok (some f) =>
    match (fs.find? (fun p => p.1 == f)).map Prod.snd with
    | none => .ok 0
    | some content => .ok ((content.getLast?).getD 0)

theorem lookPick_some (g f : FileName) :
    lookPick (some g) f =
      if (lookKey g).getD 0 ≤ (lookKey f).getD 0 then some f else some g :=
  rfl

theorem lookPick_keeps (f : FileName) :
    ∀ logs : List FileName,
      (∀ g ∈ logs, g ≠ f → (lookKey g).getD 0 < (lookKey f).getD 0) →
      logs.foldl lookPick (some f) = some f
  | [], _ => rfl
  | g :: rest, h => by
    rcases eq_or_ne g f with hg | hg
    · subst hg
      show rest.foldl lookPick (lookPick (some g) g) = some g
      rw [lookPick_some, if_pos le_rfl]
      exact lookPick_keeps g rest (fun x hx => h x (List.mem_cons_of_mem g hx))
    · show rest.foldl lookPick (lookPick (some f) g) = some f
      have hk := h g (List.mem_cons_self g rest) hg
      rw [lookPick_some, if_neg (by omega)]
      exact lookPick_keeps f rest (fun x hx => h x (List.mem_cons_of_mem g hx))

theorem lookPick_finds (f : FileName) :
    ∀ (logs : List FileName) (acc : Option FileName),
      f ∈ logs →
      (∀ g ∈ logs, g ≠ f → (lookKey g).getD 0 < (lookKey f).getD 0) →
      (∀ g, acc = some g → g ≠ f →
        (lookKey g).getD 0 < (lookKey f).getD 0) →
      logs.foldl lookPick acc = some f
  | [], _, hmem, _, _ => absurd hmem (List.not_mem_nil f)
  | g :: rest, acc, hmem, hall, hacc => by
    rcases eq_or_ne g f with hg | hg
    · subst hg
      show rest.foldl lookPick (lookPick acc g) = some g
      have hpick : lookPick acc g = some g := by
        match acc with
        | none => rfl
        | some h0 =>
          rcases eq_or_ne h0 g with h1 | h1
          · subst h1
            rw [lookPick_some, if_pos le_rfl]
          · have := hacc h0 rfl h1
            rw [lookPick_some, if_pos (by omega)]
      rw [hpick]
      exact lookPick_keeps g rest (fun x hx => hall x (List.mem_cons_of_mem g hx))
    · have hfin : f ∈ rest := by
        rcases List.mem_cons.mp hmem with h1 | h1
        · exact absurd h1.symm hg
        · exact h1
      have hgk := hall g (List.mem_cons_self g rest) hg
      refine lookPick_finds f rest (lookPick acc g) hfin
        (fun x hx => hall x (List.mem_cons_of_mem g hx)) ?_
      intro h0 hh0 hne
      match acc with
      | none =>
        rw [show lookPick none g = some g from rfl, Option.some.injEq] at hh0
        subst hh0
        exact hgk
      | some a =>
        rw [lookPick_some] at hh0
        split_ifs at hh0 <;> rw [Option.some.injEq] at hh0 <;> subst hh0
        · exact hgk
        · exact hacc a rfl hne

theorem find_key_unique {β : Type} :
    ∀ (fs : List (FileName × β)) (f : FileName) (c : β),
      (fs.map Prod.fst).Nodup → (f, c) ∈ fs →
      fs.find? (fun p => p.1 == f) = some (f, c)
  | [], f, c, _, hmem => absurd hmem (List.not_mem_nil _)
  | (g, d) :: rest, f, c, hnd, hmem => by
    rcases List.mem_cons.mp hmem with h1 | h1
    · rw [Prod.mk.injEq] at h1
      obtain ⟨hgf, hdc⟩ := h1
      subst hgf
      subst hdc
      exact List.find?_cons_of_pos rest (by simp)
    · have hgf : g ≠ f := by
        intro hgf
        subst hgf
        have : g ∈ rest.map Prod.fst :=
          List.mem_map.mpr ⟨(g, c), h1, rfl⟩
        rw [List.map_cons] at hnd
        exact (List.nodup_cons.mp hnd).1 this
      rw [List.map_cons] at hnd
      rw [List.find?_cons_of_neg rest (by simp [hgf])]
      exact find_key_unique rest f c (List.nodup_cons.mp hnd).2 h1

/-- A sample device directory: two azimuth step logs (tags 5 and 12) and
one elevation log. -/
def demoFS : PicoFS :=
  [("azimuth_step_log_5.json".data, [1, 2, 3]),
   ("elevation_step_log_9.json".data, [4]),
   ("azimuth_step_log_12.json".data, [7, 8])]

/-- A directory where one matching name carries no parsable tag:
`azimuth_step_log.json` starts with the azimuth stem, and `look`'s sort
key computes `int("log")`, which raises `ValueError`; the exception
escapes `load`. -/
def demoBadFS : PicoFS :=
  [("azimuth_step_log.json".data, [1, 2, 3]),
   ("azimuth_step_log_5.json".data, [3])]

/-- C4: `load` selects, among the files whose names start with the axis
prefix `f"{name}_step_log"`, the one with the numerically highest
timestamp tag embedded in the filename, and returns the last element of
the integer sequence stored in it (second conjunct); with no matching file
it returns 0 (first conjunct). The second conjunct requires directory
listings to carry unique names and every matching name to carry a
parsable tag, strictly smaller on every other matching name: on a listing
with a malformed matching name the program does not return at all —
`look`'s `int()` sort key raises `ValueError` outside `load`'s `try`,
which the model makes explicit (third conjunct). The last three conjuncts
run the model on concrete directories: the azimuth log with tag 12 wins
and its last element 8 is returned, an empty directory resumes at 0, and
a directory with the malformed `azimuth_step_log.json` raises. -/
theorem C4_load_highest_tag :
    (∀ (fs : PicoFS) (name : List Char),
        (fs.map Prod.fst).filter (fun f => (stepLogStem name).isPrefixOf f)
          = [] →
        load fs name = .ok 0) ∧
    (∀ (fs : PicoFS) (name : List Char) (f : FileName) (content : List ℤ)
        (last : ℤ),
        (fs.map Prod.fst).Nodup →
        (f, content) ∈ fs →
        (stepLogStem name).isPrefixOf f = true →
        (∀ g ∈ fs.map Prod.fst, (stepLogStem name).isPrefixOf g = true →
          (lookKey g).isSome = true) →
        (∀ g ∈ fs.map Prod.fst, (stepLogStem name).isPrefixOf g = true →
          g ≠ f → (lookKey g).getD 0 < (lookKey f).getD 0) →
        content.getLast? = some last →
        load fs name = .ok last) ∧
    (∀ (fs : PicoFS) (name : List Char) (g : FileName),
        g ∈ fs.map Prod.fst →
        (stepLogStem name).isPrefixOf g = true →
        lookKey g = none →
        load fs name = .error ()) ∧
    load demoFS "azimuth".data = .ok 8 ∧
    load [] "azimuth".data = .ok 0 ∧
    load demoBadFS "azimuth".data = .error () := by
  refine ⟨?_, ?_, ?_, by rfl, by rfl, by rfl⟩
  · intro fs name hempty
    unfold load look
    dsimp only
    rw [hempty]
    rfl
  · intro fs name f content last hnd hmem hpre hwf hmax hlast
    have hfmem : f ∈ (fs.map Prod.fst).filter
        (fun f => (stepLogStem name).isPrefixOf f) :=
      List.mem_filter.mpr ⟨List.mem_map.mpr ⟨(f, content), hmem, rfl⟩, hpre⟩
    have hne : (fs.map Prod.fst).filter
        (fun f => (stepLogStem name).isPrefixOf f) ≠ [] := by
      intro h
      rw [h] at hfmem
      exact absurd hfmem (List.not_mem_nil f)
    have hall : ((fs.map Prod.fst).filter
        (fun f => (stepLogStem name).isPrefixOf f)).all
          (fun g => (lookKey g).isSome) = true := by
      rw [List.all_eq_true]
      intro g hg
      have hg2 := List.mem_filter.mp hg
      exact hwf g hg2.1 hg2.2
    have hflook : look (fs.map Prod.fst) name = .ok (some f) := by
      unfold look
      dsimp only
      rw [if_neg hne, if_pos hall]
      refine congrArg Except.ok
        (lookPick_finds f _ none hfmem ?_
          (by intro g h; exact absurd h (by simp)))
      intro g hg hne2
      have hg2 := List.mem_filter.mp hg
      exact hmax g hg2.1 hg2.2 hne2
    unfold load
    rw [hflook]
    dsimp only
    rw [find_key_unique fs f content hnd hmem]
    show Except.ok ((content.getLast?).getD 0) = Except.ok last
    rw [hlast]
    rfl
  · intro fs name g hgmem hgpre hgkey
    have hgfil : g ∈ (fs.map Prod.fst).filter
        (fun f => (stepLogStem name).isPrefixOf f) :=
      List.mem_filter.mpr ⟨hgmem, hgpre⟩
    have hne : (fs.map Prod.fst).filter
        (fun f => (stepLogStem name).isPrefixOf f) ≠ [] := by
      intro h
      rw [h] at hgfil
      exact absurd hgfil (List.not_mem_nil g)
    have hnall : ¬(((fs.map Prod.fst).filter
        (fun f => (stepLogStem name).isPrefixOf f)).all
          (fun g => (lookKey g).isSome) = true) := by
      intro hAll
      rw [List.all_eq_true] at hAll
      have := hAll g hgfil
      rw [hgkey] at this
      exact absurd this (by simp)
    unfold load look
    dsimp only
    rw [if_neg hne, if_neg hnall]

/-- Python `str(n)` for a non-negative integer. -/
def natChars (n : ℕ) : List Char := Nat.toDigits 10 n

/-- The base combined log name of `scripts/sender.py`. -/
def combinedBase : FileName := "combined_step_log.txt".data

/-- The numbered combined log name `f"combined_step_log_{idx}.txt"`. -/
def suffixedName (idx : ℕ) : FileName :=
  "combined_step_log_".data ++ natChars idx ++ ".txt".data

/-- The host's directory with each file's size in bytes. -/
abbrev HostSizes := List (FileName × ℕ)

/-- `Sender.rotate_log_if_needed`: when `max_size > 0` and the file
`f"combined_step_log_{idx}.txt"` exists with at least `max_size` bytes,
the next index is `idx + 1`; `max_size <= 0` always gives 0; otherwise
`idx` is unchanged. -/
def rotate_log_if_needed (fs : HostSizes) (idx : ℕ) (max_size : ℤ) : ℕ :=
  if max_size ≤ 0 then 0
  else
    match fs.find? (fun p => p.1 == suffixedName idx) with
    | some p => if max_size ≤ (p.2 : ℤ) then idx + 1 else idx
    | none => idx

/-- `Sender.get_log_filename`: the un-suffixed base name for index 0, the
numbered name otherwise. -/
def get_log_filename (idx : ℕ) : FileName :=
  if idx = 0 then combinedBase else suffixedName idx

/-- C6: the claim says that with `max_size > 0` an active log file of size
at least `max_size` makes the next write target the next index. At index
0 the active file is the un-suffixed `combined_step_log.txt` (returned by
`get_log_filename 0`), but rotation only ever checks
`combined_step_log_0.txt`: with the base file at 150 bytes and
`max_size = 100`, `rotate_log_if_needed` keeps index 0 instead of moving
to 1. -/
theorem C6_rotation_counterexample :
    get_log_filename 0 = combinedBase ∧
    ([(combinedBase, 150)] : HostSizes).find?
        (fun p => p.1 == get_log_filename 0) = some (combinedBase, 150) ∧
    ((100 : ℤ) ≤ (150 : ℕ)) ∧
    rotate_log_if_needed [(combinedBase, 150)] 0 100 = 0 ∧
    (0 : ℕ) ≠ 0 + 1 := by
  refine ⟨rfl, by decide, by norm_num, by decide, by decide⟩

/-- C6 (amended): rotation checks the suffixed file
`combined_step_log_{idx}.txt`. For `idx > 0` that file is exactly the
active log file `get_log_filename idx`, so with `max_size > 0` the next
write target becomes `idx + 1` precisely when the active file exists with
size at least `max_size`; for `idx = 0` the active file is the un-suffixed
base name, which rotation never examines. `get_log_filename k` embeds `k`
for `k > 0` and returns the base name at 0. -/
theorem C6_rotation_amended :
    (∀ (fs : HostSizes) (idx : ℕ) (max_size : ℤ), 0 < max_size → 0 < idx →
      rotate_log_if_needed fs idx max_size =
        match fs.find? (fun p => p.1 == get_log_filename idx) with
        | some p => if max_size ≤ (p.2 : ℤ) then idx + 1 else idx
        | none => idx) ∧
    get_log_filename 0 = combinedBase ∧
    (∀ k : ℕ, 0 < k →
      get_log_filename k
        = "combined_step_log_".data ++ natChars k ++ ".txt".data) := by
  refine ⟨?_, rfl, ?_⟩
  · intro fs idx max_size hmax hidx
    unfold rotate_log_if_needed get_log_filename
    rw [if_neg (by omega), if_neg (by omega)]
  · intro k hk
    unfold get_log_filename
    rw [if_neg (by omega)]
    rfl

/-- Python `s.rsplit(sep, 2)` for a one-character separator: at most two
splits, taken from the right. -/
def pyRsplit2 (sep : Char) (s : List Char) : List (List Char) :=
  let parts := pySplit sep s
  if parts.length ≤ 3 then parts
  else
    List.intercalate [sep] (parts.take (parts.length - 2))
      :: parts.drop (parts.length - 2)

/-- One `os.listdir` entry of `Sender.scan_combined`'s loop: track the
highest index seen and the corresponding file. The base name counts as
index 0 only while no entry has been accepted; any other entry is
accepted when `entry.rsplit("_", 2)` yields exactly
`["combined_step_log", <n>, "txt"]` with `int(<n>)` parsing (a
`ValueError` is passed over). -/
def scanFold (acc : ℤ × Option FileName) (entry : FileName) :
    ℤ × Option FileName :=
  if entry = combinedBase then
    if acc.1 < 0 then ((0 : ℤ), some entry) else acc
  else
    let parts := pyRsplit2 '_' entry
    if parts.length = 3 ∧ parts.headD [] = "combined_step_log".data ∧
        parts.getLastD [] = "txt".data then
      match pyInt (parts.getD 1 []) with
      | some n => if acc.1 < n then (n, some entry) else acc
      | none => acc
    else acc

/-- The offset pass of `Sender.scan_combined`: the `az`/`el` fields of the
last well-formed `timestamp,az,el` line of the chosen file (blank lines,
lines without exactly three comma-separated fields, and lines whose
`az`/`el` fields fail `int()` are skipped). -/
def offsetsOf (lines : List (List Char)) : ℤ × ℤ :=
  lines.foldl (fun acc line =>
    let l := (line.dropWhile Char.isWhitespace).reverse.dropWhile
      Char.isWhitespace |>.reverse
    if l = [] then acc
    else
      let parts := pySplit ',' l
      if parts.length = 3 then
        match pyInt (parts.getD 1 []), pyInt (parts.getD 2 []) with
        | some a, some e => (a, e)
        | _, _ => acc
      else acc) (0, 0)

/-- The host's directory with each file's lines (as read back, stripped of
the trailing newline by the `strip()` in the loop). -/
abbrev HostFiles := List (FileName × List (List Char))

/-- `Sender.scan_combined`: scan the listing for the combined log with the
highest index, then read the az/el offsets off its last well-formed line;
`(0, 0, 0)` when nothing matches (and offsets 0 when opening the file
raises `FileNotFoundError`). -/
def scan_combined (fs : HostFiles) : ℤ × ℤ × ℤ :=
  let r := (fs.map Prod.fst).foldl scanFold (-1, none)
  if r.1 < 0 then (0, 0, 0)
  else
    match r.2 with
    | some f =>
      match (fs.find? (fun p => p.1 == f)).map Prod.snd with
      | some lines => ((r.1, offsetsOf lines) : ℤ × ℤ × ℤ)
      | none => (r.1, 0, 0)
    | none => (r.1, 0, 0)

/-- C7: the startup scan never finds any numbered combined log, because
`entry.rsplit("_", 2)` on `combined_step_log_2.txt` yields
`["combined_step", "log", "2.txt"]`, whose head is not
`"combined_step_log"` and whose last part is not `"txt"` — while the
writer (`get_log_filename`/`rotate_log_if_needed`) produces exactly such
names. A directory holding only `combined_step_log_2.txt` with last line
`100,7,8` makes `scan_combined` return `(0, 0, 0)` where its own
docstring, and the claim, require `(2, 7, 8)`. -/
theorem C7_scan_never_matches_numbered_logs :
    pyRsplit2 '_' "combined_step_log_2.txt".data
      = ["combined_step".data, "log".data, "2.txt".data] ∧
    get_log_filename 2 = "combined_step_log_2.txt".data ∧
    scan_combined [("combined_step_log_2.txt".data, ["100,7,8".data])]
      = (0, 0, 0) ∧
    ((0, 0, 0) : ℤ × ℤ × ℤ) ≠ (2, 7, 8) := by
  refine ⟨by decide, by decide, by decide, by decide⟩

/-- `Potentiometer.POT_ZERO_THRESHOLD = 0.005`. -/
def POT_ZERO_THRESHOLD : ℚ := 5 / 1000

/-- `np.sign` on a number. -/
def npSign (x : ℚ) : ℤ := if 0 < x then 1 else if x < 0 then -1 else 0

/-- `Potentiometer.vdiff` for one axis: the first differences of that
axis's voltage history column (`np.diff` along the measurement axis). -/
def vdiff (volts : List ℚ) : List ℚ :=
  List.zipWith (fun b a => b - a) volts.tail volts

/-- `np.mean` of the first differences. -/
def meanDiff (volts : List ℚ) : ℚ :=
  (vdiff volts).sum / (vdiff volts).length

/-- `Potentiometer.direction` for one axis: 0 when the mean difference is
strictly within the threshold, its sign otherwise. -/
def potDirection (volts : List ℚ) : ℤ :=
  if |meanDiff volts| < POT_ZERO_THRESHOLD then 0
  else npSign (meanDiff volts)

/-- The two monitored axes. -/
inductive PotAxis
  | az
  | alt

/-- `Potentiometer.VOLT_RANGE`: `{"az": (0.3, 2.5), "alt": (1., 2.)}`. -/
def VOLT_RANGE : PotAxis → ℚ × ℚ
  | .az => (3/10, 5/2)
  | .alt => (1, 2)

/-- The history column belonging to an axis (`az` is the first component
of each stored voltage pair, `alt` the second). -/
def column (axis : PotAxis) (volts : List (ℚ × ℚ)) : List ℚ :=
  match axis with
  | .az => volts.map Prod.fst
  | .alt => volts.map Prod.snd

/-- `Potentiometer.direction[axis]` on the stored history of pairs. -/
def direction (axis : PotAxis) (volts : List (ℚ × ℚ)) : ℤ :=
  potDirection (column axis volts)

/-- `Potentiometer._trigger_reverse`: true when the axis is classified
moving positive and the reading has reached the configured maximum, or
moving negative and the reading has reached the configured minimum. -/
def trigger_reverse (axis : PotAxis) (volts : List (ℚ × ℚ))
    (volt_reading : ℚ) : Bool :=
  let vmin := (VOLT_RANGE axis).1
  let vmax := (VOLT_RANGE axis).2
  let d := direction axis volts
  if 0 < d ∧ vmax ≤ volt_reading then true
  else if d < 0 ∧ volt_reading ≤ vmin then true
  else false

/-- C9: per axis, the direction classifier returns 0 exactly when the
absolute value of the mean of the first differences of the voltage
history is strictly below the 0.005 V threshold, and otherwise the sign
of that mean (first conjunct); on the history column
`[1.0, 1.01, 1.02]` it returns +1 and on `[1.0, 1.001, 0.999]` it
returns 0 (remaining conjuncts). -/
theorem C9_pot_direction :
    (∀ (axis : PotAxis) (volts : List (ℚ × ℚ)),
      direction axis volts =
        if |meanDiff (column axis volts)| < POT_ZERO_THRESHOLD then 0
        else npSign (meanDiff (column axis volts))) ∧
    potDirection [1, 101/100, 102/100] = 1 ∧
    potDirection [1, 1001/1000, 999/1000] = 0 := by
  refine ⟨fun axis volts => rfl, ?_, ?_⟩
  · unfold potDirection meanDiff vdiff POT_ZERO_THRESHOLD npSign
    norm_num [List.zipWith]
    rw [abs_of_nonneg (by norm_num : (0:ℚ) ≤ 1/100)]
    norm_num
  · unfold potDirection meanDiff vdiff POT_ZERO_THRESHOLD npSign
    norm_num [List.zipWith]
    rw [abs_of_nonneg (by norm_num : (0:ℚ) ≤ 1/2000)]
    norm_num

/-- A stationary history: three identical voltage pairs, with the azimuth
column resting exactly at the azimuth maximum voltage 2.5. -/
def stationaryHist : List (ℚ × ℚ) := [(5/2, 1), (5/2, 1), (5/2, 1)]

/-- C10: `_trigger_reverse` returns false whenever the classified
direction of the axis is 0, for every voltage reading — including
readings at or beyond the configured limits (first conjunct); it returns
true exactly when the direction is positive with the reading at or above
the configured maximum or negative with the reading at or below the
configured minimum (second conjunct); and a stationary axis resting
exactly at its maximum voltage does not trigger (third conjunct). -/
theorem C10_trigger_reverse :
    (∀ (axis : PotAxis) (volts : List (ℚ × ℚ)) (v : ℚ),
      direction axis volts = 0 → trigger_reverse axis volts v = false) ∧
    (∀ (axis : PotAxis) (volts : List (ℚ × ℚ)) (v : ℚ),
      trigger_reverse axis volts v = true ↔
        (0 < direction axis volts ∧ (VOLT_RANGE axis).2 ≤ v) ∨
        (direction axis volts < 0 ∧ v ≤ (VOLT_RANGE axis).1)) ∧
    trigger_reverse PotAxis.az stationaryHist (5/2) = false := by
  refine ⟨?_, ?_, ?_⟩
  · intro axis volts v h0
    unfold trigger_reverse
    rw [if_neg (by omega), if_neg (by omega)]
  · intro axis volts v
    unfold trigger_reverse
    dsimp only
    split_ifs with h1 h2
    · simp only [true_iff]
      exact Or.inl h1
    · simp only [true_iff]
      exact Or.inr h2
    · simp only [false_iff]
      push_neg at h1 h2 ⊢
      exact ⟨h1, h2⟩
  · have h0 : direction PotAxis.az stationaryHist = 0 := by
      unfold direction stationaryHist column potDirection meanDiff vdiff
        POT_ZERO_THRESHOLD
      norm_num [List.zipWith]
    unfold trigger_reverse
    rw [if_neg (by omega), if_neg (by omega)]

end EigsepMC
